import Mathlib

/-!
Verification of the auto-expansion core of the snippet app
(`src-tauri/src/auto_expand.rs` and `src-tauri/src/lib.rs`).

The Rust code is shallowly embedded as follows.

* `rdev::Key` (the physical-key identifier delivered by the OS listener)
  becomes the inductive `RKey`, with the same constructors; the `Unknown(u32)`
  variant carries a `Nat`.
* The typed buffer (a Rust `String`, i.e. a UTF-8 sequence of characters)
  becomes a `List Char`; Rust's byte-oriented `String::len` is modelled
  explicitly by `byteLen` (sum of UTF-8 sizes), `String::push` by appending,
  `String::pop` by `List.dropLast`, `String::remove(0)` by `List.drop 1`,
  and `str::trim` by dropping whitespace characters at both ends.
* `SnippetMap` (a mutex-guarded `HashMap<String, String>`) becomes a
  structure holding a lookup function `String → Option String`; `update`
  clears the table and inserts the given pairs in order, `get` reads it.
  The mutexes serialize each operation, so each Rust method is one atomic
  function on the state, and the listener callback is one atomic step.
* The synthetic-input side effects of the callback (`enigo.key(Backspace,
  Click)` and `enigo.text(..)`) are recorded as a list of `InjEvent`s
  returned by the step function; whether `Enigo::new(&settings)` succeeds
  is an explicit boolean parameter `enigoOk` of the step.
* The Tauri commands of `lib.rs` become functions from the relevant state
  (`Option ExpanderState` for the expander handle, `SnippetMap` for the
  snippet table) to an `Except String` result paired with the new state.
-/

/-- Physical key identifiers, mirroring the `rdev::Key` enumeration
(imported as `RKey` in `auto_expand.rs`). -/
inductive RKey where
  | Alt | AltGr | Backspace | CapsLock | ControlLeft | ControlRight | Delete
  | DownArrow | End | Escape
  | F1 | F2 | F3 | F4 | F5 | F6 | F7 | F8 | F9 | F10 | F11 | F12
  | Home | LeftArrow | MetaLeft | MetaRight | PageDown | PageUp | Return
  | RightArrow | ShiftLeft | ShiftRight | Space | Tab | UpArrow | PrintScreen
  | ScrollLock | Pause | NumLock | BackQuote
  | Num1 | Num2 | Num3 | Num4 | Num5 | Num6 | Num7 | Num8 | Num9 | Num0
  | Minus | Equal
  | KeyQ | KeyW | KeyE | KeyR | KeyT | KeyY | KeyU | KeyI | KeyO | KeyP
  | LeftBracket | RightBracket
  | KeyA | KeyS | KeyD | KeyF | KeyG | KeyH | KeyJ | KeyK | KeyL
  | SemiColon | Quote | BackSlash | IntlBackslash
  | KeyZ | KeyX | KeyC | KeyV | KeyB | KeyN | KeyM
  | Comma | Dot | Slash | Insert | KpReturn | KpMinus | KpPlus | KpMultiply
  | KpDivide
  | Kp0 | Kp1 | Kp2 | Kp3 | Kp4 | Kp5 | Kp6 | Kp7 | Kp8 | Kp9
  | KpDelete | Function
  | Unknown (code : Nat)

/-- The function `key_to_char` of `auto_expand.rs` (lines 135-177): the
partial key-to-character table used by the callback's wildcard arm. -/
def key_to_char (key : RKey) : Option Char :=
  match key with
  | .KeyA => some 'a'
  | .KeyB => some 'b'
  | .KeyC => some 'c'
  | .KeyD => some 'd'
  | .KeyE => some 'e'
  | .KeyF => some 'f'
  | .KeyG => some 'g'
  | .KeyH => some 'h'
  | .KeyI => some 'i'
  | .KeyJ => some 'j'
  | .KeyK => some 'k'
  | .KeyL => some 'l'
  | .KeyM => some 'm'
  | .KeyN => some 'n'
  | .KeyO => some 'o'
  | .KeyP => some 'p'
  | .KeyQ => some 'q'
  | .KeyR => some 'r'
  | .KeyS => some 's'
  | .KeyT => some 't'
  | .KeyU => some 'u'
  | .KeyV => some 'v'
  | .KeyW => some 'w'
  | .KeyX => some 'x'
  | .KeyY => some 'y'
  | .KeyZ => some 'z'
  | .Num0 => some '0'
  | .Num1 => some '1'
  | .Num2 => some '2'
  | .Num3 => some '3'
  | .Num4 => some '4'
  | .Num5 => some '5'
  | .Num6 => some '6'
  | .Num7 => some '7'
  | .Num8 => some '8'
  | .Num9 => some '9'
  | .Minus => some '-'
  | .Equal => some '='
  | _ => none

/-- The characters the key table can produce: lowercase letters, digits,
hyphen and equals. -/
def bufChars : List Char :=
  ['a', 'b', 'c', 'd', 'e', 'f', 'g', 'h', 'i', 'j', 'k', 'l', 'm',
   'n', 'o', 'p', 'q', 'r', 's', 't', 'u', 'v', 'w', 'x', 'y', 'z',
   '0', '1', '2', '3', '4', '5', '6', '7', '8', '9', '-', '=']

/-- Byte length of a character sequence under UTF-8, modelling Rust's
`String::len` / `str::len` (which count bytes, not characters). -/
def byteLen (l : List Char) : Nat :=
  (l.map Char.utf8Size).sum

/-- Whitespace trimming at both ends of the buffer, modelling
`str::trim` in the callback (`buf.trim()`). -/
def trim (l : List Char) : List Char :=
  ((l.dropWhile Char.isWhitespace).reverse.dropWhile Char.isWhitespace).reverse

/-- The buffer-relevant action a key resolves to (the spec's
KeyEventClassifier); the cases are read off the `match key` in the
callback of `AutoExpander::start` together with `key_to_char`. -/
inductive KeyAction where
  | character (c : Char)
  | wordBoundary
  | eraseLast
  | ignore
deriving DecidableEq

/-- Classification of a key as performed by the callback of
`AutoExpander::start`: space/return/tab are word boundaries, backspace is
erase-last, keys with a `key_to_char` entry append that character, and
every other key is ignored. -/
def classify (key : RKey) : KeyAction :=
  match key with
  | .Space | .Return | .Tab => .wordBoundary
  | .Backspace => .eraseLast
  | k =>
    match key_to_char k with
    | some c => .character c
    | none => .ignore

/-- The `SnippetMap` of `auto_expand.rs`: a keyword-to-expansion table
(the mutex-guarded `HashMap<String, String>`), modelled by its lookup
function. -/
structure SnippetMap where
  snippets : String → Option String

/-- `SnippetMap::new`: the empty table. -/
def SnippetMap.new : SnippetMap :=
  ⟨fun _ => none⟩

/-- One `HashMap::insert`: the inserted pair overrides any previous
binding of the same keyword. -/
def insertPair (m : String → Option String) (p : String × String) :
    String → Option String :=
  fun x => if x = p.1 then some p.2 else m x

/-- `SnippetMap::update` (lines 19-26): clears the table, then inserts the
given pairs in order, so the previous contents are discarded wholesale. -/
def SnippetMap.update (_self : SnippetMap) (entries : List (String × String)) :
    SnippetMap :=
  ⟨entries.foldl insertPair (fun _ => none)⟩

/-- `SnippetMap::get` (lines 28-30): looks the keyword up; reads only. -/
def SnippetMap.get (self : SnippetMap) (keyword : String) : Option String :=
  self.snippets keyword

/-- Synthetic-input events emitted through the `enigo` handle during an
expansion: a backspace click (`enigo.key(Key::Backspace, Direction::Click)`)
or a text injection (`enigo.text(&expansion)`). -/
inductive InjEvent where
  | backspaceClick
  | text (s : String)
deriving DecidableEq

/-- The character-append arm of the callback (lines 110-119): push the
character, then if the byte length exceeds 100, remove the first
character (`buf.remove(0)` removes the character starting at byte 0). -/
def pushChar (buf : List Char) (ch : Char) : List Char :=
  let buf' := buf ++ [ch]
  if byteLen buf' > 100 then buf'.drop 1 else buf'

/-- The word-boundary arm of the callback (lines 76-106): trim the buffer,
look it up; on a match, create the enigo handle — on failure log and
return early, leaving the buffer as it is — otherwise emit one backspace
click per byte of the keyword and then the expansion text, and clear the
buffer; on no match just clear the buffer. -/
def boundaryStep (snippetMap : SnippetMap) (enigoOk : Bool) (buf : List Char) :
    List Char × List InjEvent :=
  let keyword := trim buf
  match snippetMap.get (String.mk keyword) with
  | some expansion =>
    if enigoOk then
      ([], List.replicate (byteLen keyword) InjEvent.backspaceClick
        ++ [InjEvent.text expansion])
    else
      (buf, [])
  | none => ([], [])

/-- One invocation of the listener callback of `AutoExpander::start`
(lines 66-125) on a key-press event: if the enabled flag is off the event
is dropped; otherwise the key is dispatched to the word-boundary,
backspace (`buf.pop()`), or character arm. Returns the new buffer and the
injection events emitted. -/
def callbackStep (snippetMap : SnippetMap) (enigoOk : Bool) (enabled : Bool)
    (buf : List Char) (key : RKey) : List Char × List InjEvent :=
  if !enabled then (buf, [])
  else
    match key with
    | .Space | .Return | .Tab => boundaryStep snippetMap enigoOk buf
    | .Backspace => (buf.dropLast, [])
    | k =>
      match key_to_char k with
      | some ch => (pushChar buf ch, [])
      | none => (buf, [])

/-- Repeated invocation of the callback on a sequence of key presses,
accumulating the emitted injection events. -/
def runKeys (snippetMap : SnippetMap) (enigoOk : Bool) (enabled : Bool)
    (buf : List Char) (keys : List RKey) : List Char × List InjEvent :=
  keys.foldl
    (fun acc k =>
      let r := callbackStep snippetMap enigoOk enabled acc.1 k
      (r.1, acc.2 ++ r.2))
    (buf, [])

/-- The mutable state of an `AutoExpander` as seen by the commands of
`lib.rs`: the typed buffer and the enabled flag. -/
structure ExpanderState where
  buffer : List Char
  enabled : Bool
deriving DecidableEq

/-- The `enable_auto_expansion` command of `lib.rs` (lines 15-25): sets
the flag if the expander exists, otherwise returns an error and changes
nothing. The `Option ExpanderState` is the `Option<AutoExpander>` slot of
`AppState`. -/
def enable_auto_expansion (st : Option ExpanderState) :
    Except String Unit × Option ExpanderState :=
  match st with
  | some exp => (.ok (), some { exp with enabled := true })
  | none => (.error "Auto-expander not initialized", none)

/-- The `disable_auto_expansion` command of `lib.rs` (lines 27-37). -/
def disable_auto_expansion (st : Option ExpanderState) :
    Except String Unit × Option ExpanderState :=
  match st with
  | some exp => (.ok (), some { exp with enabled := false })
  | none => (.error "Auto-expander not initialized", none)

/-- The `is_auto_expansion_enabled` command of `lib.rs` (lines 55-63):
reads the flag, reporting `false` when the expander was never created;
it never returns an error and does not change any state. -/
def is_auto_expansion_enabled (st : Option ExpanderState) :
    Except String Bool :=
  match st with
  | some exp => .ok exp.enabled
  | none => .ok false

/-- The `update_snippets_map` command of `lib.rs` (lines 39-53): rejects
keyword/text lists of different lengths before touching the map,
otherwise zips them pairwise in order and replaces the map contents. -/
def update_snippets_map (keywords : List String) (texts : List String)
    (m : SnippetMap) : Except String Unit × SnippetMap :=
  if keywords.length ≠ texts.length then
    (.error "Keywords and texts length mismatch", m)
  else
    (.ok (), m.update (keywords.zip texts))

/-- The last binding of keyword `k` in an update's input list, if any:
the value of the last pair whose first component is `k`. -/
def lastAssoc (entries : List (String × String)) (k : String) :
    Option String :=
  (entries.reverse.find? (fun p => p.1 = k)).map Prod.snd

/-- A whole history of `update` calls applied in order to a map. -/
def applyUpdates (m : SnippetMap) (us : List (List (String × String))) :
    SnippetMap :=
  us.foldl SnippetMap.update m

/-! ### Helper lemmas about the character set of the key table -/

theorem mem_bufChars_utf8Size : ∀ c ∈ bufChars, c.utf8Size = 1 := by decide

theorem mem_bufChars_not_whitespace : ∀ c ∈ bufChars, c.isWhitespace = false := by
  decide

theorem byteLen_nil : byteLen [] = 0 := rfl

theorem byteLen_cons (a : Char) (t : List Char) :
    byteLen (a :: t) = a.utf8Size + byteLen t := by
  simp [byteLen]

theorem byteLen_eq_length (l : List Char) (h : ∀ c ∈ l, c ∈ bufChars) :
    byteLen l = l.length := by
  induction l with
  | nil => rfl
  | cons a t ih =>
    have ha := mem_bufChars_utf8Size a (h a (by simp))
    have ht := ih (fun c hc => h c (by simp [hc]))
    rw [byteLen_cons, ha, ht, List.length_cons]
    omega

theorem dropWhile_not_ws (l : List Char) (h : ∀ c ∈ l, c.isWhitespace = false) :
    l.dropWhile Char.isWhitespace = l := by
  rw [List.dropWhile_eq_self_iff]
  intro hl hp
  rw [h _ (l.get_mem 0 hl)] at hp
  exact Bool.noConfusion hp

theorem trim_eq_self (l : List Char) (h : ∀ c ∈ l, c ∈ bufChars) : trim l = l := by
  unfold trim
  rw [dropWhile_not_ws l (fun c hc => mem_bufChars_not_whitespace c (h c hc)),
    dropWhile_not_ws l.reverse
      (fun c hc => mem_bufChars_not_whitespace c (h c (List.mem_reverse.mp hc))),
    List.reverse_reverse]

/-! ### Helper lemmas about the snippet table -/

theorem foldl_insertPair_apply (entries : List (String × String))
    (m : String → Option String) (k : String) :
    (entries.foldl insertPair m) k =
      match entries.reverse.find? (fun p => p.1 = k) with
      | some p => some p.2
      | none => m k := by
  induction entries generalizing m with
  | nil => rfl
  | cons e es ih =>
    rw [List.foldl_cons, ih]
    simp only [List.reverse_cons, List.find?_append]
    cases hfind : es.reverse.find? (fun p => p.1 = k) with
    | some p => simp [Option.or]
    | none =>
      simp only [Option.or]
      by_cases hk : e.1 = k
      · simp [List.find?, hk, insertPair]
      · simp [List.find?, hk, insertPair]
        intro h
        exact absurd h.symm hk

theorem get_update (m : SnippetMap) (entries : List (String × String))
    (k : String) : (m.update entries).get k = lastAssoc entries k := by
  simp only [SnippetMap.update, SnippetMap.get, lastAssoc]
  rw [foldl_insertPair_apply]
  cases h : entries.reverse.find? (fun p => p.1 = k) <;> simp [h]

/-! ### Helper lemmas about the key classifier and the callback -/

theorem callbackStep_classify (m : SnippetMap) (ok : Bool) (buf : List Char)
    (k : RKey) :
    callbackStep m ok true buf k =
      match classify k with
      | .wordBoundary => boundaryStep m ok buf
      | .eraseLast => (buf.dropLast, [])
      | .character c => (pushChar buf c, [])
      | .ignore => (buf, []) := by
  cases k <;> rfl

theorem classify_wordBoundary_iff (k : RKey) :
    classify k = KeyAction.wordBoundary ↔
      (k = RKey.Space ∨ k = RKey.Return ∨ k = RKey.Tab) := by
  cases k <;> constructor <;> intro h <;>
    first
    | exact Or.inl rfl
    | exact Or.inr (Or.inl rfl)
    | exact Or.inr (Or.inr rfl)
    | rfl
    | injection h
    | (rcases h with h | h | h <;> injection h)

theorem classify_eraseLast_iff (k : RKey) :
    classify k = KeyAction.eraseLast ↔ k = RKey.Backspace := by
  cases k <;> constructor <;> intro h <;> first | rfl | injection h

theorem classify_character_iff (k : RKey) (c : Char) :
    classify k = KeyAction.character c ↔ key_to_char k = some c := by
  cases k <;> constructor <;> intro h <;>
    first
    | (injection h with h; subst h; rfl)
    | injection h

theorem key_to_char_mem_bufChars (k : RKey) (c : Char)
    (h : key_to_char k = some c) : c ∈ bufChars := by
  cases k <;> (try exact absurd h (by intro hh; exact Option.noConfusion hh)) <;>
    (injection h with h; subst h; decide)

theorem callbackStep_wordBoundary (m : SnippetMap) (ok : Bool)
    (buf : List Char) (k : RKey) (hk : classify k = KeyAction.wordBoundary) :
    callbackStep m ok true buf k = boundaryStep m ok buf := by
  rw [callbackStep_classify, hk]

theorem callbackStep_character (m : SnippetMap) (ok : Bool) (buf : List Char)
    (k : RKey) (c : Char) (hk : classify k = KeyAction.character c) :
    callbackStep m ok true buf k = (pushChar buf c, []) := by
  rw [callbackStep_classify, hk]

theorem callbackStep_eraseLast (m : SnippetMap) (ok : Bool) (buf : List Char)
    (k : RKey) (hk : classify k = KeyAction.eraseLast) :
    callbackStep m ok true buf k = (buf.dropLast, []) := by
  rw [callbackStep_classify, hk]

theorem callbackStep_ignore (m : SnippetMap) (ok : Bool) (buf : List Char)
    (k : RKey) (hk : classify k = KeyAction.ignore) :
    callbackStep m ok true buf k = (buf, []) := by
  rw [callbackStep_classify, hk]

theorem callbackStep_disabled (m : SnippetMap) (ok : Bool) (buf : List Char)
    (k : RKey) : callbackStep m ok false buf k = (buf, []) := rfl

theorem runKeys_disabled (m : SnippetMap) (ok : Bool) (buf : List Char)
    (keys : List RKey) : runKeys m ok false buf keys = (buf, []) := by
  have aux : ∀ (t : List RKey) (acc : List Char × List InjEvent),
      t.foldl (fun acc k =>
        let r := callbackStep m ok false acc.1 k
        (r.1, acc.2 ++ r.2)) acc = acc := by
    intro t
    induction t with
    | nil => intro acc; rfl
    | cons a t ih =>
      intro acc
      rw [List.foldl_cons]
      have h1 : (let r := callbackStep m ok false acc.1 a
          (r.1, acc.2 ++ r.2)) = acc := by
        simp [callbackStep_disabled]
      rw [h1]
      exact ih acc
  exact aux keys (buf, [])

/-! ### Claim theorems -/

/-- C4: after any sequence of `SnippetMap.update` calls, `get k` returns
`some v` exactly when `(k, v)` is the last pair with keyword `k` in the most
recent call's input (last-one-wins); entries from earlier calls not repeated
in the latest input are unreachable, and updating with the empty list clears
the map. `get` is modelled as a pure reader of the table, which the source
only locks and reads. -/
theorem snippetMap_update_get (history : List (List (String × String)))
    (entries : List (String × String)) (m0 m : SnippetMap) (k v : String) :
    ((applyUpdates m0 (history ++ [entries])).get k = some v ↔
      lastAssoc entries k = some v)
    ∧ (applyUpdates m0 (history ++ [entries])).get k = lastAssoc entries k
    ∧ (m.update []).get k = none := by
  have h1 : applyUpdates m0 (history ++ [entries])
      = (applyUpdates m0 history).update entries := by
    unfold applyUpdates
    rw [List.foldl_append]
    rfl
  refine ⟨?_, ?_, rfl⟩ <;> rw [h1, get_update]

/-- C5: while the enabled flag is false, every key event leaves the buffer
unchanged and emits no injection, over single events and whole sequences;
the disable and enable commands themselves only touch the flag, so buffer
contents from before disabling survive a disable/enable cycle and dropped
events are never reprocessed. -/
theorem disabled_drops_events (m : SnippetMap) (ok : Bool) (buf : List Char)
    (k : RKey) (keys : List RKey) (e : ExpanderState) :
    callbackStep m ok false buf k = (buf, [])
    ∧ runKeys m ok false buf keys = (buf, [])
    ∧ (disable_auto_expansion (some e)).2 = some ⟨e.buffer, false⟩
    ∧ (enable_auto_expansion (some e)).2 = some ⟨e.buffer, true⟩ :=
  ⟨callbackStep_disabled m ok buf k, runKeys_disabled m ok buf keys, rfl, rfl⟩

/-- C6: `update_snippets_map` with keyword and text lists of unequal length
returns an error synchronously and leaves the stored map fully unchanged;
with equal-length lists it succeeds and the new map binds each keyword to
the element-wise paired text (in input order, last pair of a duplicate
keyword winning). -/
theorem update_snippets_map_spec (keywords texts : List String)
    (m : SnippetMap) (k : String) :
    (keywords.length ≠ texts.length →
      update_snippets_map keywords texts m
        = (Except.error "Keywords and texts length mismatch", m))
    ∧ (keywords.length = texts.length →
      (update_snippets_map keywords texts m).1 = Except.ok ()
        ∧ (update_snippets_map keywords texts m).2.get k
            = lastAssoc (keywords.zip texts) k) := by
  constructor
  · intro h
    simp [update_snippets_map, h]
  · intro h
    simp [update_snippets_map, h, get_update]

/-- C6 witness: a concrete mismatched call fails and leaves the map as it
was, and a concrete equal-length call succeeds and stores the pairing. -/
theorem update_snippets_map_spec_witness :
    (update_snippets_map ["a"] [] SnippetMap.new
      = (Except.error "Keywords and texts length mismatch", SnippetMap.new))
    ∧ (update_snippets_map ["a"] ["1"] SnippetMap.new).1 = Except.ok ()
    ∧ (update_snippets_map ["a"] ["1"] SnippetMap.new).2.get "a"
        = lastAssoc [("a", "1")] "a" := by
  refine ⟨(update_snippets_map_spec ["a"] [] SnippetMap.new "a").1 (by decide),
    ((update_snippets_map_spec ["a"] ["1"] SnippetMap.new "a").2 rfl).1,
    ((update_snippets_map_spec ["a"] ["1"] SnippetMap.new "a").2 rfl).2⟩

/-- C8: before the expander is initialized, `enable_auto_expansion` and
`disable_auto_expansion` return an error and leave the state untouched,
while `is_auto_expansion_enabled` succeeds with `false`; once initialized
the enable/disable commands succeed and set the flag (leaving the buffer
alone) and the query reports the current flag. -/
theorem commands_initialization (e : ExpanderState) :
    enable_auto_expansion none
      = (Except.error "Auto-expander not initialized", none)
    ∧ disable_auto_expansion none
      = (Except.error "Auto-expander not initialized", none)
    ∧ is_auto_expansion_enabled none = Except.ok false
    ∧ enable_auto_expansion (some e) = (Except.ok (), some ⟨e.buffer, true⟩)
    ∧ disable_auto_expansion (some e) = (Except.ok (), some ⟨e.buffer, false⟩)
    ∧ is_auto_expansion_enabled (some e) = Except.ok e.enabled :=
  ⟨rfl, rfl, rfl, rfl, rfl, rfl⟩

/-- C9: while enabled, a backspace key event removes exactly the most
recently appended character from a non-empty buffer, is a no-op (without
error) on the empty buffer, and emits no injection either way. -/
theorem backspace_pops_last (m : SnippetMap) (ok : Bool) (xs buf : List Char)
    (x : Char) :
    callbackStep m ok true (xs ++ [x]) RKey.Backspace = (xs, [])
    ∧ callbackStep m ok true [] RKey.Backspace = ([], [])
    ∧ callbackStep m ok true buf RKey.Backspace = (buf.dropLast, []) := by
  refine ⟨?_, rfl, rfl⟩
  show (List.dropLast (xs ++ [x]), ([] : List InjEvent)) = (xs, [])
  rw [List.dropLast_concat]

theorem boundaryStep_nomatch (m : SnippetMap) (ok : Bool) (buf : List Char)
    (h : m.get (String.mk (trim buf)) = none) :
    boundaryStep m ok buf = ([], []) := by
  simp [boundaryStep, h]

theorem boundaryStep_match_ok (m : SnippetMap) (buf : List Char)
    (exp : String) (h : m.get (String.mk (trim buf)) = some exp) :
    boundaryStep m true buf
      = ([], List.replicate (byteLen (trim buf)) InjEvent.backspaceClick
          ++ [InjEvent.text exp]) := by
  simp [boundaryStep, h]

theorem boundaryStep_match_fail (m : SnippetMap) (buf : List Char)
    (exp : String) (h : m.get (String.mk (trim buf)) = some exp) :
    boundaryStep m false buf = (buf, []) := by
  simp [boundaryStep, h]

/-- C1 counterexample: with the stored map binding "a" to "b", an enabled
buffer "a" and a space key, but with creation of the injector handle
failing, the buffer after the word-boundary event is still "a" — not
empty, contrary to the claim that the buffer has been cleared regardless
of injector-handle failure. -/
theorem boundary_clear_counterexample :
    (callbackStep (SnippetMap.new.update [("a", "b")]) false true
      ['a'] RKey.Space).1 = ['a']
    ∧ ['a'] ≠ ([] : List Char) := by
  constructor
  · decide
  · decide

/-- C1 (amended): while enabled, a word-boundary event clears the buffer
whenever the trimmed buffer matches no keyword, and also on a match when
the injector handle is created successfully; but when the trimmed buffer
matches a keyword and handle creation fails, the handler returns early and
the buffer is left unchanged (not cleared). -/
theorem boundary_clears_buffer (m : SnippetMap) (ok : Bool) (buf : List Char)
    (k : RKey) (hk : classify k = KeyAction.wordBoundary) :
    (m.get (String.mk (trim buf)) = none →
      (callbackStep m ok true buf k).1 = [])
    ∧ (ok = true → (callbackStep m ok true buf k).1 = [])
    ∧ (∀ exp, ok = false → m.get (String.mk (trim buf)) = some exp →
        (callbackStep m ok true buf k).1 = buf) := by
  rw [callbackStep_wordBoundary m ok buf k hk]
  refine ⟨?_, ?_, ?_⟩
  · intro h
    rw [boundaryStep_nomatch m ok buf h]
  · intro h
    subst h
    cases hget : m.get (String.mk (trim buf)) with
    | none => rw [boundaryStep_nomatch m true buf hget]
    | some exp => rw [boundaryStep_match_ok m buf exp hget]
  · intro exp hok hget
    subst hok
    rw [boundaryStep_match_fail m buf exp hget]

/-- C1 witness: with no stored keyword the space key empties the concrete
buffer "a" even though handle creation fails; and with keyword "a" stored
and handle creation failing, the buffer "a" stays untouched. -/
theorem boundary_clears_buffer_witness :
    (callbackStep SnippetMap.new false true ['a'] RKey.Space).1 = []
    ∧ (callbackStep (SnippetMap.new.update [("a", "b")]) false true
        ['a'] RKey.Space).1 = ['a'] := by
  constructor
  · exact (boundary_clears_buffer SnippetMap.new false ['a'] RKey.Space
      rfl).1 rfl
  · exact (boundary_clears_buffer (SnippetMap.new.update [("a", "b")]) false
      ['a'] RKey.Space rfl).2.2 "b" rfl (by decide)

/-- C3: while enabled, a word-boundary event whose trimmed buffer matches a
stored keyword, with the injector handle created successfully, emits exactly
one backspace click per character of the trimmed buffer followed by one type
event carrying the stored expansion verbatim; when the trimmed buffer
matches no keyword, no injection event is emitted at all. -/
theorem boundary_injection_exact (m : SnippetMap) (buf : List Char)
    (k : RKey) (ok : Bool) (hk : classify k = KeyAction.wordBoundary)
    (hbuf : ∀ c ∈ buf, c ∈ bufChars) :
    (∀ expansion, m.get (String.mk (trim buf)) = some expansion →
      callbackStep m true true buf k
        = ([], List.replicate (trim buf).length InjEvent.backspaceClick
            ++ [InjEvent.text expansion]))
    ∧ (m.get (String.mk (trim buf)) = none →
      (callbackStep m ok true buf k).2 = []) := by
  have htr : trim buf = buf := trim_eq_self buf hbuf
  constructor
  · intro expansion hget
    rw [callbackStep_wordBoundary m true buf k hk,
      boundaryStep_match_ok m buf expansion hget, htr,
      byteLen_eq_length buf hbuf]
  · intro hget
    rw [callbackStep_wordBoundary m ok buf k hk,
      boundaryStep_nomatch m ok buf hget]

/-- C3 witness: with the map binding "brb" to "be right back" and the
enabled buffer "brb", a space emits exactly three backspace clicks and then
types "be right back"; with buffer "x" (no match) nothing is emitted. -/
theorem boundary_injection_exact_witness :
    callbackStep (SnippetMap.new.update [("brb", "be right back")]) true true
      ['b', 'r', 'b'] RKey.Space
      = ([], [InjEvent.backspaceClick, InjEvent.backspaceClick,
          InjEvent.backspaceClick, InjEvent.text "be right back"])
    ∧ (callbackStep (SnippetMap.new.update [("brb", "be right back")]) true
        true ['x'] RKey.Space).2 = [] := by
  constructor
  · exact ((boundary_injection_exact
      (SnippetMap.new.update [("brb", "be right back")]) ['b', 'r', 'b']
      RKey.Space true rfl (by decide)).1 "be right back" (by decide)).trans
      (by decide)
  · exact (boundary_injection_exact
      (SnippetMap.new.update [("brb", "be right back")]) ['x']
      RKey.Space true rfl (by decide)).2 (by decide)

/-! ### Helper lemmas for the bounded buffer (FIFO window) -/

theorem byteLen_append (l1 l2 : List Char) :
    byteLen (l1 ++ l2) = byteLen l1 + byteLen l2 := by
  simp [byteLen]

theorem byteLen_singleton (c : Char) : byteLen [c] = c.utf8Size := by
  simp [byteLen]

theorem pushChar_full (buf : List Char) (c : Char)
    (hbuf : ∀ x ∈ buf, x ∈ bufChars) (hc : c ∈ bufChars)
    (hlen : buf.length = 100) :
    pushChar buf c = buf.drop 1 ++ [c] := by
  have hb : byteLen (buf ++ [c]) = 101 := by
    rw [byteLen_append, byteLen_eq_length buf hbuf, byteLen_singleton,
      mem_bufChars_utf8Size c hc, hlen]
  simp only [pushChar]
  rw [hb, if_pos (by omega), List.drop_append_eq_append_drop]
  have h1 : 1 - buf.length = 0 := by omega
  rw [h1, List.drop_zero]

theorem pushChar_window (l : List Char) (c : Char)
    (hl : ∀ x ∈ l, x ∈ bufChars) (hc : c ∈ bufChars) :
    pushChar (l.drop (l.length - 100)) c
      = (l ++ [c]).drop ((l ++ [c]).length - 100) := by
  have hdl : ∀ x ∈ l.drop (l.length - 100), x ∈ bufChars :=
    fun x hx => hl x (List.drop_subset _ _ hx)
  have hlen1 : (l ++ [c]).length = l.length + 1 := by simp
  rcases Nat.lt_or_ge l.length 100 with hlt | hge
  · have h0 : l.length - 100 = 0 := by omega
    have h1 : (l ++ [c]).length - 100 = 0 := by rw [hlen1]; omega
    rw [h0, List.drop_zero, h1, List.drop_zero]
    have hb : byteLen (l ++ [c]) = l.length + 1 := by
      rw [byteLen_append, byteLen_eq_length l hl, byteLen_singleton,
        mem_bufChars_utf8Size c hc]
    simp only [pushChar]
    rw [hb, if_neg (by omega)]
  · have hw : (l.drop (l.length - 100)).length = 100 := by
      rw [List.length_drop]; omega
    rw [pushChar_full _ c hdl hc hw, List.drop_drop, hlen1,
      List.drop_append_eq_append_drop]
    have h2 : l.length + 1 - 100 - l.length = 0 := by omega
    have h3 : l.length - 100 + 1 = l.length + 1 - 100 := by omega
    rw [h2, List.drop_zero, h3]

theorem foldl_pushChar_window (cs : List Char) : ∀ l : List Char,
    (∀ x ∈ l, x ∈ bufChars) → (∀ x ∈ cs, x ∈ bufChars) →
    cs.foldl pushChar (l.drop (l.length - 100))
      = (l ++ cs).drop ((l ++ cs).length - 100) := by
  induction cs with
  | nil =>
    intro l _ _
    simp
  | cons c cs ih =>
    intro l hl hcs
    rw [List.foldl_cons, pushChar_window l c hl (hcs c (by simp))]
    have hl' : ∀ x ∈ l ++ [c], x ∈ bufChars := by
      intro x hx
      rcases List.mem_append.mp hx with h | h
      · exact hl x h
      · simp at h
        subst h
        exact hcs x (by simp)
    have := ih (l ++ [c]) hl' (fun x hx => hcs x (by simp [hx]))
    rw [this, List.append_assoc]
    rfl

theorem foldl_pushChar_from_nil (cs : List Char)
    (hcs : ∀ x ∈ cs, x ∈ bufChars) :
    List.foldl pushChar [] cs = cs.drop (cs.length - 100) := by
  have := foldl_pushChar_window cs [] (by intro x hx; cases hx) hcs
  simpa using this

theorem step_wf (m : SnippetMap) (ok : Bool) (buf : List Char) (k : RKey)
    (hbuf : ∀ x ∈ buf, x ∈ bufChars) :
    ∀ x ∈ (callbackStep m ok true buf k).1, x ∈ bufChars := by
  cases hcl : classify k with
  | character c =>
    rw [callbackStep_character m ok buf k c hcl]
    have hc : c ∈ bufChars :=
      key_to_char_mem_bufChars k c ((classify_character_iff k c).mp hcl)
    intro x hx
    have hsub : pushChar buf c ⊆ buf ++ [c] := by
      simp only [pushChar]
      split
      · exact List.drop_subset _ _
      · exact fun a ha => ha
    rcases List.mem_append.mp (hsub hx) with h | h
    · exact hbuf x h
    · simp at h
      subst h
      exact hc
  | wordBoundary =>
    rw [callbackStep_wordBoundary m ok buf k hcl]
    cases hget : m.get (String.mk (trim buf)) with
    | none =>
      rw [boundaryStep_nomatch m ok buf hget]
      intro x hx
      cases hx
    | some exp =>
      cases ok with
      | true =>
        rw [boundaryStep_match_ok m buf exp hget]
        intro x hx
        cases hx
      | false =>
        rw [boundaryStep_match_fail m buf exp hget]
        exact hbuf
  | eraseLast =>
    rw [callbackStep_eraseLast m ok buf k hcl]
    intro x hx
    exact hbuf x (List.dropLast_subset buf hx)
  | ignore =>
    rw [callbackStep_ignore m ok buf k hcl]
    exact hbuf

theorem step_len (m : SnippetMap) (ok : Bool) (buf : List Char) (k : RKey)
    (hbuf : ∀ x ∈ buf, x ∈ bufChars) (hlen : buf.length ≤ 100) :
    ((callbackStep m ok true buf k).1).length ≤ 100 := by
  cases hcl : classify k with
  | character c =>
    rw [callbackStep_character m ok buf k c hcl]
    have hc : c ∈ bufChars :=
      key_to_char_mem_bufChars k c ((classify_character_iff k c).mp hcl)
    have hb : byteLen (buf ++ [c]) = buf.length + 1 := by
      rw [byteLen_append, byteLen_eq_length buf hbuf, byteLen_singleton,
        mem_bufChars_utf8Size c hc]
    simp only [pushChar]
    split
    · rw [List.length_drop, List.length_append]
      simp
      omega
    · next h =>
      rw [hb] at h
      rw [List.length_append]
      simp at h ⊢
      omega
  | wordBoundary =>
    rw [callbackStep_wordBoundary m ok buf k hcl]
    cases hget : m.get (String.mk (trim buf)) with
    | none =>
      rw [boundaryStep_nomatch m ok buf hget]
      simp
    | some exp =>
      cases ok with
      | true =>
        rw [boundaryStep_match_ok m buf exp hget]
        simp
      | false =>
        rw [boundaryStep_match_fail m buf exp hget]
        exact hlen
  | eraseLast =>
    rw [callbackStep_eraseLast m ok buf k hcl]
    rw [List.length_dropLast]
    omega
  | ignore =>
    rw [callbackStep_ignore m ok buf k hcl]
    exact hlen

theorem runKeys_fst (m : SnippetMap) (ok e : Bool) (buf : List Char)
    (keys : List RKey) :
    (runKeys m ok e buf keys).1
      = keys.foldl (fun b k_1 => (callbackStep m ok e b k_1).1) buf := by
  have aux : ∀ (t : List RKey) (acc : List Char × List InjEvent),
      (t.foldl (fun acc k_1 =>
        let r := callbackStep m ok e acc.1 k_1
        (r.1, acc.2 ++ r.2)) acc).1
        = t.foldl (fun b k_1 => (callbackStep m ok e b k_1).1) acc.1 := by
    intro t
    induction t with
    | nil => intro acc; rfl
    | cons a t ih =>
      intro acc
      rw [List.foldl_cons, List.foldl_cons, ih]
  exact aux keys (buf, [])

theorem foldl_step_inv (m : SnippetMap) (ok : Bool) (keys : List RKey) :
    ∀ buf : List Char, (∀ x ∈ buf, x ∈ bufChars) → buf.length ≤ 100 →
      (∀ x ∈ keys.foldl (fun b k_1 => (callbackStep m ok true b k_1).1) buf,
        x ∈ bufChars)
      ∧ (keys.foldl (fun b k_1 => (callbackStep m ok true b k_1).1)
          buf).length ≤ 100 := by
  induction keys with
  | nil => exact fun buf h1 h2 => ⟨h1, h2⟩
  | cons a t ih =>
    intro buf h1 h2
    rw [List.foldl_cons]
    exact ih _ (step_wf m ok buf a h1) (step_len m ok buf a h1 h2)

/-- C2: starting from any buffer satisfying the reachable-state invariant
(classifier characters only, length at most 100), the buffer length stays
at most 100 after every further sequence of events; at length exactly 100 a
character append drops exactly the oldest (first) character and appends the
new one; and a pure sequence of character appends from the empty buffer
yields exactly the most recent up-to-100 characters in order. -/
theorem buffer_bound (m : SnippetMap) (ok : Bool) (buf : List Char)
    (hbuf : ∀ x ∈ buf, x ∈ bufChars) (hlen : buf.length ≤ 100) :
    (∀ keys, ((runKeys m ok true buf keys).1).length ≤ 100)
    ∧ (∀ k c, classify k = KeyAction.character c → buf.length = 100 →
        (callbackStep m ok true buf k).1 = buf.drop 1 ++ [c])
    ∧ (∀ cs, (∀ x ∈ cs, x ∈ bufChars) →
        List.foldl pushChar [] cs = cs.drop (cs.length - 100)) := by
  refine ⟨?_, ?_, fun cs hcs => foldl_pushChar_from_nil cs hcs⟩
  · intro keys
    rw [runKeys_fst]
    exact (foldl_step_inv m ok keys buf hbuf hlen).2
  · intro k c hcl h100
    rw [callbackStep_character m ok buf k c hcl]
    exact pushChar_full buf c hbuf
      (key_to_char_mem_bufChars k c ((classify_character_iff k c).mp hcl)) h100

/-- C2 witness: from a concrete full buffer of one hundred characters, one
more key keeps the length at 100, evicting exactly the first character; a
short character sequence from the empty buffer is kept whole. -/
theorem buffer_bound_witness :
    ((runKeys SnippetMap.new true true (List.replicate 100 'a')
      [RKey.KeyB]).1).length ≤ 100
    ∧ (callbackStep SnippetMap.new true true (List.replicate 100 'a')
        RKey.KeyB).1 = (List.replicate 100 'a').drop 1 ++ ['b']
    ∧ List.foldl pushChar [] ['a', 'b']
        = (['a', 'b']).drop ((['a', 'b']).length - 100) := by
  refine ⟨(buffer_bound SnippetMap.new true (List.replicate 100 'a')
      (by decide) (by decide)).1 [RKey.KeyB],
    (buffer_bound SnippetMap.new true (List.replicate 100 'a')
      (by decide) (by decide)).2.1 RKey.KeyB 'b' rfl (by decide),
    (buffer_bound SnippetMap.new true (List.replicate 100 'a')
      (by decide) (by decide)).2.2 ['a', 'b'] (by decide)⟩

/-- C10: every key-event transition (enabled or disabled) keeps the buffer
inside the classifier's character range (lowercase letters, digits, hyphen,
equals); such a buffer contains no whitespace and no multi-byte character,
so trimming it is the identity and its byte length equals its character
count. -/
theorem buffer_charset_invariant (m : SnippetMap) (ok e : Bool)
    (buf : List Char) (k : RKey) (hbuf : ∀ x ∈ buf, x ∈ bufChars) :
    (∀ x ∈ (callbackStep m ok e buf k).1, x ∈ bufChars)
    ∧ (∀ x ∈ buf, x.isWhitespace = false ∧ x.utf8Size = 1)
    ∧ trim buf = buf
    ∧ byteLen buf = buf.length := by
  refine ⟨?_, ?_, trim_eq_self buf hbuf, byteLen_eq_length buf hbuf⟩
  · cases e with
    | false =>
      rw [callbackStep_disabled]
      exact hbuf
    | true => exact step_wf m ok buf k hbuf
  · intro x hx
    exact ⟨mem_bufChars_not_whitespace x (hbuf x hx),
      mem_bufChars_utf8Size x (hbuf x hx)⟩

/-- C10 witness: the invariant and its consequences evaluated on the
concrete buffer "a-" and a concrete key press. -/
theorem buffer_charset_invariant_witness :
    (∀ x ∈ (callbackStep SnippetMap.new true true ['a', '-'] RKey.KeyB).1,
      x ∈ bufChars)
    ∧ (∀ x ∈ ['a', '-'], x.isWhitespace = false ∧ x.utf8Size = 1)
    ∧ trim ['a', '-'] = ['a', '-']
    ∧ byteLen ['a', '-'] = (['a', '-']).length :=
  buffer_charset_invariant SnippetMap.new true true ['a', '-'] RKey.KeyB
    (by decide)

/-- C7: the key classifier is a total function by construction (every key,
including every `Unknown` code, resolves to exactly one action); it yields a
word boundary exactly for space, return and tab, erase-last exactly for
backspace, and `character c` exactly when the key table binds the key to
`c`; the characters it can produce are exactly the lowercase letters,
digits, hyphen and equals. Keys in none of these classes are ignored (the
remaining constructor of `KeyAction`). -/
theorem classifier_exact (k : RKey) (c : Char) :
    (classify k = KeyAction.wordBoundary ↔
      (k = RKey.Space ∨ k = RKey.Return ∨ k = RKey.Tab))
    ∧ (classify k = KeyAction.eraseLast ↔ k = RKey.Backspace)
    ∧ (classify k = KeyAction.character c ↔ key_to_char k = some c)
    ∧ ((∃ k2, classify k2 = KeyAction.character c) ↔ c ∈ bufChars) := by
  refine ⟨classify_wordBoundary_iff k, classify_eraseLast_iff k,
    classify_character_iff k c, ?_, ?_⟩
  · rintro ⟨k2, h⟩
    exact key_to_char_mem_bufChars k2 c ((classify_character_iff k2 c).mp h)
  · intro hc
    fin_cases hc <;>
      first
      | exact ⟨RKey.KeyA, rfl⟩
      | exact ⟨RKey.KeyB, rfl⟩
      | exact ⟨RKey.KeyC, rfl⟩
      | exact ⟨RKey.KeyD, rfl⟩
      | exact ⟨RKey.KeyE, rfl⟩
      | exact ⟨RKey.KeyF, rfl⟩
      | exact ⟨RKey.KeyG, rfl⟩
      | exact ⟨RKey.KeyH, rfl⟩
      | exact ⟨RKey.KeyI, rfl⟩
      | exact ⟨RKey.KeyJ, rfl⟩
      | exact ⟨RKey.KeyK, rfl⟩
      | exact ⟨RKey.KeyL, rfl⟩
      | exact ⟨RKey.KeyM, rfl⟩
      | exact ⟨RKey.KeyN, rfl⟩
      | exact ⟨RKey.KeyO, rfl⟩
      | exact ⟨RKey.KeyP, rfl⟩
      | exact ⟨RKey.KeyQ, rfl⟩
      | exact ⟨RKey.KeyR, rfl⟩
      | exact ⟨RKey.KeyS, rfl⟩
      | exact ⟨RKey.KeyT, rfl⟩
      | exact ⟨RKey.KeyU, rfl⟩
      | exact ⟨RKey.KeyV, rfl⟩
      | exact ⟨RKey.KeyW, rfl⟩
      | exact ⟨RKey.KeyX, rfl⟩
      | exact ⟨RKey.KeyY, rfl⟩
      | exact ⟨RKey.KeyZ, rfl⟩
      | exact ⟨RKey.Num0, rfl⟩
      | exact ⟨RKey.Num1, rfl⟩
      | exact ⟨RKey.Num2, rfl⟩
      | exact ⟨RKey.Num3, rfl⟩
      | exact ⟨RKey.Num4, rfl⟩
      | exact ⟨RKey.Num5, rfl⟩
      | exact ⟨RKey.Num6, rfl⟩
      | exact ⟨RKey.Num7, rfl⟩
      | exact ⟨RKey.Num8, rfl⟩
      | exact ⟨RKey.Num9, rfl⟩
      | exact ⟨RKey.Minus, rfl⟩
      | exact ⟨RKey.Equal, rfl⟩
